import Mathlib

/-!
# Verification of the ts3-sec-cuda-rs batched hashing engine

Shallow embedding of the batched SHA1 security-level engine of
`ts3-sec-cuda-rs` and proofs of the specification's claims about it.

Bytes are modelled as `Nat` values below 256, byte strings as `List Nat`,
`u8`/`u32`/`u64` machine arithmetic as `Nat` with explicit `% 2^w` where
overflow matters.

The functions `count_trailing_zero_bits` (from `examples/batch_hashing.rs`),
the best-candidate scan of that example's `main`, and `benchmark_config`
(from `benches/kernel_params.rs`) are embedded directly from the Rust
source.  The SHA1 core, the CPU/GPU hashers and the level improver live in
modules (`hashers/`, `helpers/`, `level_improver/`) whose source is not part
of the reviewed excerpt; those are modelled from the specification, and each
such definition carries a doc comment saying so.
-/

set_option maxRecDepth 8192

namespace TS3Sec

/-! ## `u8::trailing_zeros`

Rust's `u8::trailing_zeros`: the number of trailing (least-significant)
zero bits, 8 for the value 0.  Fuel-based so that it reduces by `decide`. -/

def tzAux : Nat → Nat → Nat
  | 0, _ => 0
  | fuel + 1, b => if b % 2 = 1 then 0 else tzAux fuel (b / 2) + 1

def u8TrailingZeros (b : Nat) : Nat := tzAux 8 b

theorem tzAux_le (fuel b : Nat) : tzAux fuel b ≤ fuel := by
  induction fuel generalizing b with
  | zero => simp [tzAux]
  | succ n ih =>
    simp only [tzAux]
    split
    · exact Nat.zero_le _
    · exact Nat.succ_le_succ (ih _)

theorem u8TrailingZeros_le (b : Nat) : u8TrailingZeros b ≤ 8 :=
  tzAux_le 8 b

theorem u8TrailingZeros_le_seven : ∀ b : Fin 256, b.val = 0 ∨ u8TrailingZeros b.val ≤ 7 := by
  decide

/-! ## `count_trailing_zero_bits` (examples/batch_hashing.rs, lines 69–80)

```rust
fn count_trailing_zero_bits(hash: &[u8]) -> u8 {
    let mut count = 0;
    for &byte in hash {
        if byte == 0 {
            count += 8;
        } else {
            count += byte.trailing_zeros() as u8;
            break;
        }
    }
    count
}
```

The accumulator `count` is a `u8`, so every addition is taken `% 256`
(release-build wrapping semantics); `ctzbNoWrapGo` is the same loop with
exact arithmetic, used to state that no overflow actually occurs. -/

def ctzbGo (count : Nat) : List Nat → Nat
  | [] => count
  | b :: rest =>
    if b = 0 then ctzbGo ((count + 8) % 256) rest
    else (count + u8TrailingZeros b) % 256

def count_trailing_zero_bits (hash : List Nat) : Nat := ctzbGo 0 hash

def ctzbNoWrapGo (count : Nat) : List Nat → Nat
  | [] => count
  | b :: rest =>
    if b = 0 then ctzbNoWrapGo (count + 8) rest
    else count + u8TrailingZeros b

def ctzbNoWrap (hash : List Nat) : Nat := ctzbNoWrapGo 0 hash

theorem ctzbGo_eq_noWrap (l : List Nat) : ∀ count : Nat,
    count + 8 * l.length < 256 → ctzbGo count l = ctzbNoWrapGo count l := by
  induction l with
  | nil => intro count _; rfl
  | cons b rest ih =>
    intro count hlt
    simp only [List.length_cons] at hlt
    by_cases hb : b = 0
    · simp only [ctzbGo, ctzbNoWrapGo, if_pos hb]
      have h8 : count + 8 < 256 := by omega
      rw [Nat.mod_eq_of_lt h8]
      exact ih (count + 8) (by omega)
    · simp only [ctzbGo, ctzbNoWrapGo, if_neg hb]
      have htz : u8TrailingZeros b ≤ 8 := u8TrailingZeros_le b
      exact Nat.mod_eq_of_lt (by omega)

theorem ctzbNoWrapGo_le (l : List Nat) : ∀ count : Nat,
    ctzbNoWrapGo count l ≤ count + 8 * l.length := by
  induction l with
  | nil => intro count; simp [ctzbNoWrapGo]
  | cons b rest ih =>
    intro count
    simp only [ctzbNoWrapGo, List.length_cons]
    split
    · have := ih (count + 8); omega
    · have := u8TrailingZeros_le b; omega

theorem ctzbNoWrapGo_all_zero (l : List Nat) (hz : ∀ b ∈ l, b = 0) :
    ∀ count : Nat, ctzbNoWrapGo count l = count + 8 * l.length := by
  induction l with
  | nil => intro count; simp [ctzbNoWrapGo]
  | cons b rest ih =>
    intro count
    have hb : b = 0 := hz b (List.mem_cons_self b rest)
    simp only [ctzbNoWrapGo, if_pos hb, List.length_cons]
    rw [ih (fun x hx => hz x (List.mem_cons_of_mem b hx))]
    ring

theorem ctzbNoWrapGo_lt_of_nonzero (l : List Nat) (hb : ∀ b ∈ l, b < 256)
    (hnz : ¬ ∀ b ∈ l, b = 0) :
    ∀ count : Nat, ctzbNoWrapGo count l < count + 8 * l.length := by
  induction l with
  | nil => exact absurd (by simp) hnz
  | cons b rest ih =>
    intro count
    simp only [ctzbNoWrapGo, List.length_cons]
    by_cases h0 : b = 0
    · rw [if_pos h0]
      have hrest : ¬ ∀ x ∈ rest, x = 0 := by
        intro hall
        exact hnz (fun x hx => by
          rcases List.mem_cons.mp hx with h | h
          · exact h ▸ h0
          · exact hall x h)
      have := ih (fun x hx => hb x (List.mem_cons_of_mem b hx)) hrest (count + 8)
      omega
    · rw [if_neg h0]
      have hblt : b < 256 := hb b (List.mem_cons_self b rest)
      have h7 : u8TrailingZeros b ≤ 7 := by
        rcases u8TrailingZeros_le_seven ⟨b, hblt⟩ with h | h
        · exact absurd h h0
        · exact h
      omega

/-- C10: for every byte slice of length at most 31 — in particular every
20-byte digest — `count_trailing_zero_bits` is total and its `u8` accumulator
never wraps (the wrapping and the exact-arithmetic loops agree), the result is
at most `8 * length`; for a 20-byte digest the result lies in `[0, 160]` and
equals 160 exactly when every byte of the digest is zero. -/
theorem count_trailing_zero_bits_safe (hash : List Nat)
    (hb : ∀ b ∈ hash, b < 256) (hlen : hash.length ≤ 31) :
    count_trailing_zero_bits hash = ctzbNoWrap hash ∧
    count_trailing_zero_bits hash ≤ 8 * hash.length ∧
    (hash.length = 20 →
      count_trailing_zero_bits hash ≤ 160 ∧
      (count_trailing_zero_bits hash = 160 ↔ ∀ b ∈ hash, b = 0)) := by
  have heq : count_trailing_zero_bits hash = ctzbNoWrap hash :=
    ctzbGo_eq_noWrap hash 0 (by omega)
  have hle : ctzbNoWrapGo 0 hash ≤ 8 * hash.length := by
    have := ctzbNoWrapGo_le hash 0; omega
  refine ⟨heq, ?_, ?_⟩
  · rw [heq]; exact hle
  · intro h20
    constructor
    · rw [heq]; unfold ctzbNoWrap; omega
    · constructor
      · intro h160
        by_contra hnz
        have := ctzbNoWrapGo_lt_of_nonzero hash hb hnz 0
        rw [heq] at h160
        unfold ctzbNoWrap at h160
        omega
      · intro hz
        rw [heq]
        unfold ctzbNoWrap
        rw [ctzbNoWrapGo_all_zero hash hz 0, h20]

/-- Witness for `count_trailing_zero_bits_safe` at the all-zero 20-byte
digest. -/
theorem count_trailing_zero_bits_safe_witness :
    count_trailing_zero_bits (List.replicate 20 0) = ctzbNoWrap (List.replicate 20 0) ∧
    count_trailing_zero_bits (List.replicate 20 0) ≤ 8 * (List.replicate 20 (0 : Nat)).length ∧
    ((List.replicate 20 (0 : Nat)).length = 20 →
      count_trailing_zero_bits (List.replicate 20 0) ≤ 160 ∧
      (count_trailing_zero_bits (List.replicate 20 0) = 160 ↔
        ∀ b ∈ List.replicate 20 (0 : Nat), b = 0)) :=
  count_trailing_zero_bits_safe (List.replicate 20 0) (by decide) (by decide)

/-- C2, counterexample: the claim says a digest whose first byte is `0x01`
has level 7, but `count_trailing_zero_bits` on the digest
`0x01 00 … 00` returns 0, not 7: the code adds the first nonzero byte's
trailing (least-significant) zero bits, not its leading ones. -/
theorem level_first_byte_one_cex :
    ¬ count_trailing_zero_bits (1 :: List.replicate 19 0) = 7 := by
  decide

/-- C2, amended: `count_trailing_zero_bits` counts 8 bits per leading zero
byte and, at the first nonzero byte, adds that byte's trailing
(least-significant) zero bits, then stops; in particular a digest whose
first byte is `0x01` yields 0, a digest whose first byte is `0x80` yields 7,
and the all-zero 20-byte digest yields 160. -/
theorem count_trailing_zero_bits_spec (b : Nat) (rest : List Nat) (hb : b ≠ 0) :
    count_trailing_zero_bits (b :: rest) = u8TrailingZeros b ∧
    count_trailing_zero_bits (1 :: rest) = 0 ∧
    count_trailing_zero_bits (128 :: rest) = 7 ∧
    count_trailing_zero_bits (List.replicate 20 0) = 160 := by
  have hgen : ∀ c : Nat, c ≠ 0 →
      count_trailing_zero_bits (c :: rest) = u8TrailingZeros c := by
    intro c hc
    simp only [count_trailing_zero_bits, ctzbGo, if_neg hc, Nat.zero_add]
    exact Nat.mod_eq_of_lt (lt_of_le_of_lt (u8TrailingZeros_le c) (by omega))
  refine ⟨hgen b hb, ?_, ?_, by decide⟩
  · rw [hgen 1 (by omega)]; rfl
  · rw [hgen 128 (by omega)]; rfl

/-- Witness for `count_trailing_zero_bits_spec` at `b = 1`,
`rest = 19 zero bytes`. -/
theorem count_trailing_zero_bits_spec_witness :
    count_trailing_zero_bits (1 :: List.replicate 19 0) = u8TrailingZeros 1 ∧
    count_trailing_zero_bits (1 :: List.replicate 19 0) = 0 ∧
    count_trailing_zero_bits (128 :: List.replicate 19 0) = 7 ∧
    count_trailing_zero_bits (List.replicate 20 0) = 160 :=
  count_trailing_zero_bits_spec 1 (List.replicate 19 0) (by decide)

/-! ## Best-candidate scan (examples/batch_hashing.rs, lines 54–66)

```rust
let mut best_level = 0;
let mut best_counter = start_counter;
for (i, hash) in hashes.iter().enumerate() {
    let level = count_trailing_zero_bits(hash);
    if level > best_level {
        best_level = level;
        best_counter = start_counter + i;
    }
}
```

`scanGo` is the loop over the per-candidate levels with explicit
index and accumulator `(best_counter, best_level)`. -/

def scanGo (start : Nat) : Nat → List Nat → Nat × Nat → Nat × Nat
  | _, [], acc => acc
  | i, l :: ls, (bc, bl) =>
    scanGo start (i + 1) ls (if bl < l then (start + i, l) else (bc, bl))

def scanBest (start : Nat) (levels : List Nat) : Nat × Nat :=
  scanGo start 0 levels (start, 0)

theorem foldl_max_of_all_le (ls : List Nat) : ∀ b : Nat,
    (∀ x ∈ ls, x ≤ b) → ls.foldl max b = b := by
  induction ls with
  | nil => intro b _; rfl
  | cons l ls ih =>
    intro b hall
    rw [List.foldl_cons, Nat.max_eq_left (hall l (List.mem_cons_self l ls))]
    exact ih b (fun x hx => hall x (List.mem_cons_of_mem l hx))

theorem le_foldl_max_init (ls : List Nat) : ∀ b : Nat, b ≤ ls.foldl max b := by
  induction ls with
  | nil => intro b; exact Nat.le_refl b
  | cons l ls ih =>
    intro b
    rw [List.foldl_cons]
    exact le_trans (Nat.le_max_left b l) (ih (max b l))

theorem le_foldl_max_of_mem (ls : List Nat) : ∀ b x : Nat, x ∈ ls → x ≤ ls.foldl max b := by
  induction ls with
  | nil => intro _ x hx; cases hx
  | cons l ls ih =>
    intro b x hx
    rw [List.foldl_cons]
    rcases List.mem_cons.mp hx with h | h
    · subst h
      exact le_trans (Nat.le_max_right b x) (le_foldl_max_init ls (max b x))
    · exact ih (max b l) x h

theorem scanGo_no_improve (start : Nat) (ls : List Nat) : ∀ (i bc bl : Nat),
    (∀ x ∈ ls, x ≤ bl) → scanGo start i ls (bc, bl) = (bc, bl) := by
  induction ls with
  | nil => intro i bc bl _; rfl
  | cons l ls ih =>
    intro i bc bl hall
    have hl : l ≤ bl := hall l (List.mem_cons_self l ls)
    simp only [scanGo, if_neg (Nat.not_lt.mpr hl)]
    exact ih (i + 1) bc bl (fun x hx => hall x (List.mem_cons_of_mem l hx))

theorem scanGo_spec (start : Nat) (ls : List Nat) : ∀ (bl : Nat),
    (∃ x ∈ ls, bl < x) → ∀ (i bc : Nat),
    scanGo start i ls (bc, bl) =
      (start + i + ls.findIdx (fun x => x == ls.foldl max bl), ls.foldl max bl) := by
  induction ls with
  | nil => intro bl h; exact absurd h (by simp)
  | cons l ls ih =>
    intro bl hex i bc
    by_cases hcase : ∃ x ∈ ls, max bl l < x
    · -- the maximum is attained strictly later in the list
      rcases hcase with ⟨y, hy, hly⟩
      have hlM : l < ls.foldl max (max bl l) := by
        have h1 : y ≤ ls.foldl max (max bl l) := le_foldl_max_of_mem ls (max bl l) y hy
        have h2 : l ≤ max bl l := Nat.le_max_right bl l
        omega
      by_cases hbl : bl < l
      · have hmax : max bl l = l := Nat.max_eq_right (Nat.le_of_lt hbl)
        have hex2 : ∃ x ∈ ls, l < x := ⟨y, hy, by omega⟩
        simp only [scanGo, if_pos hbl]
        rw [ih l hex2 (i + 1) (start + i)]
        have hM2 : (l :: ls).foldl max bl = ls.foldl max l := by
          rw [List.foldl_cons, hmax]
        rw [hM2, List.findIdx_cons]
        rw [hmax] at hlM
        have hpl : (l == ls.foldl max l) = false :=
          beq_false_of_ne (Nat.ne_of_lt hlM)
        simp only [hpl, cond_false, Prod.mk.injEq, and_true]
        omega
      · have hmax : max bl l = bl := Nat.max_eq_left (Nat.le_of_not_lt hbl)
        have hex2 : ∃ x ∈ ls, bl < x := ⟨y, hy, by omega⟩
        simp only [scanGo, if_neg hbl]
        rw [ih bl hex2 (i + 1) bc]
        have hM2 : (l :: ls).foldl max bl = ls.foldl max bl := by
          rw [List.foldl_cons, hmax]
        rw [hM2, List.findIdx_cons]
        rw [hmax] at hlM
        have hpl : (l == ls.foldl max bl) = false :=
          beq_false_of_ne (Nat.ne_of_lt hlM)
        simp only [hpl, cond_false, Prod.mk.injEq, and_true]
        omega
    · -- the head already carries the window's maximum
      push_neg at hcase
      have hbl : bl < l := by
        rcases hex with ⟨x, hx, hblx⟩
        rcases List.mem_cons.mp hx with h | h
        · omega
        · have h1 := hcase x h
          rcases Nat.le_total l bl with h2 | h2
          · rw [Nat.max_eq_left h2] at h1; omega
          · omega
      have hall : ∀ x ∈ ls, x ≤ l := by
        intro x hx
        have h1 := hcase x hx
        rw [Nat.max_eq_right (Nat.le_of_lt hbl)] at h1
        exact h1
      have hM : (l :: ls).foldl max bl = l := by
        rw [List.foldl_cons, Nat.max_eq_right (Nat.le_of_lt hbl)]
        exact foldl_max_of_all_le ls l hall
      simp only [scanGo, if_pos hbl]
      rw [scanGo_no_improve start ls (i + 1) (start + i) l hall]
      rw [hM, List.findIdx_cons]
      simp only [beq_self_eq_true, cond_true]
      rfl

/-- C4: in the best-candidate scan over one window of levels, when several
candidates achieve the same maximum level the lowest counter is kept: the
best counter is `start` plus the smallest index attaining the window's
maximum (so later candidates with an equal level never replace the recorded
one), and the best level is that maximum. -/
theorem scanBest_lowest_counter_wins (start : Nat) (levels : List Nat)
    (h : levels ≠ []) :
    scanBest start levels =
      (start + levels.findIdx (fun x => x == levels.foldl max 0),
       levels.foldl max 0) := by
  unfold scanBest
  by_cases hex : ∃ x ∈ levels, 0 < x
  · rw [scanGo_spec start levels 0 hex 0 start]
    simp only [Prod.mk.injEq, and_true]
    omega
  · push_neg at hex
    have hall : ∀ x ∈ levels, x ≤ 0 := fun x hx => hex x hx
    rw [scanGo_no_improve start levels 0 start 0 hall]
    rcases levels with _ | ⟨a, ls⟩
    · exact absurd rfl h
    · have ha : a = 0 := Nat.le_zero.mp (hall a (List.mem_cons_self a ls))
      have hM : (a :: ls).foldl max 0 = 0 :=
        foldl_max_of_all_le (a :: ls) 0 hall
      subst ha
      rw [hM, List.findIdx_cons]
      simp only [beq_self_eq_true, cond_true]
      rfl

/-- Witness for `scanBest_lowest_counter_wins`: with `start = 5` and window
levels `[3, 1, 2, 1, 3]`, counters 5 and 9 both attain the maximum level 3
and the reported best counter is 5. -/
theorem scanBest_lowest_counter_wins_witness :
    scanBest 5 [3, 1, 2, 1, 3] = (5, 3) :=
  (scanBest_lowest_counter_wins 5 [3, 1, 2, 1, 3] (by decide)).trans (by decide)

/-! ## List chunking

`chunksOf n l` splits `l` into consecutive runs of `n` elements (the last
run may be shorter).  Fuel-based on the list length so that it reduces by
`decide`/`rfl`. -/

def chunksAux (n : Nat) : Nat → List α → List (List α)
  | 0, _ => []
  | _ + 1, [] => []
  | fuel + 1, x :: xs => (x :: xs).take n :: chunksAux n fuel ((x :: xs).drop n)

def chunksOf (n : Nat) (l : List α) : List (List α) := chunksAux n l.length l

theorem chunksAux_join (n : Nat) (hn : 1 ≤ n) :
    ∀ (fuel : Nat) (l : List α), l.length ≤ fuel → (chunksAux n fuel l).flatten = l := by
  intro fuel
  induction fuel with
  | zero =>
    intro l hl
    rw [List.length_eq_zero.mp (Nat.le_zero.mp hl)]
    rfl
  | succ f ih =>
    intro l hl
    match l with
    | [] => rfl
    | x :: xs =>
      simp only [chunksAux, List.flatten_cons]
      rw [ih ((x :: xs).drop n) (by
        rw [List.length_drop]
        simp only [List.length_cons] at hl ⊢
        omega)]
      exact List.take_append_drop n (x :: xs)

theorem chunksOf_join (n : Nat) (hn : 1 ≤ n) (l : List α) :
    (chunksOf n l).flatten = l :=
  chunksAux_join n hn l.length l (Nat.le_refl _)

theorem chunksOf_singleton (n : Nat) (l : List α) (hne : l ≠ [])
    (hle : l.length ≤ n) : chunksOf n l = [l] := by
  match l with
  | [] => exact absurd rfl hne
  | x :: xs =>
    show chunksAux n (x :: xs).length (x :: xs) = [x :: xs]
    rw [show (x :: xs).length = xs.length + 1 from rfl]
    simp only [chunksAux]
    rw [List.take_of_length_le hle, List.drop_eq_nil_of_le hle]
    match xs.length with
    | 0 => rfl
    | _ + 1 => rfl

/-! ## SHA1 core

Modelled from the spec (§4.2): the SHA1 source (`hashers/` module) is not
part of the reviewed excerpt.  `digest(bytes) -> Digest` is "bit-identical
to the SHA1 standard (MD-padding: append 0x80, zero-pad, append 64-bit
big-endian bit length; five 32-bit working registers; 80-round compression
with the four standard round constants and functions)", with a fast path
(message + padding in one 64-byte block, i.e. at most 55 content bytes:
a single compression from the initial constants) and a slow path (one
compression per block, chaining the registers). -/

def U32 : Nat := 4294967296

def rotl (n x : Nat) : Nat := ((x <<< n) ||| (x >>> (32 - n))) % U32

def sha1K (t : Nat) : Nat :=
  if t < 20 then 0x5A827999
  else if t < 40 then 0x6ED9EBA1
  else if t < 60 then 0x8F1BBCDC
  else 0xCA62C1D6

def sha1F (t b c d : Nat) : Nat :=
  if t < 20 then (b &&& c) ||| ((b ^^^ 0xFFFFFFFF) &&& d)
  else if t < 40 then b ^^^ c ^^^ d
  else if t < 60 then (b &&& c) ||| (b &&& d) ||| (c &&& d)
  else b ^^^ c ^^^ d

/-- The 80-word message schedule: the 16 block words followed by
`W[t] = rotl1 (W[t-3] xor W[t-8] xor W[t-14] xor W[t-16])`. -/
def sha1Schedule (ws : List Nat) : List Nat :=
  (List.range 64).foldl
    (fun acc _ =>
      let n := acc.length
      acc ++ [rotl 1 ((acc.getD (n - 3) 0) ^^^ (acc.getD (n - 8) 0) ^^^
        (acc.getD (n - 14) 0) ^^^ (acc.getD (n - 16) 0))])
    ws

def sha1Rounds (W : List Nat) (r : Nat × Nat × Nat × Nat × Nat) :
    Nat × Nat × Nat × Nat × Nat :=
  (List.range 80).foldl
    (fun acc t =>
      match acc with
      | (a, b, c, d, e) =>
        ((rotl 5 a + sha1F t b c d + e + sha1K t + W.getD t 0) % U32,
         a, rotl 30 b, c, d))
    r

structure SHA1State where
  h0 : Nat
  h1 : Nat
  h2 : Nat
  h3 : Nat
  h4 : Nat

def sha1Init : SHA1State :=
  ⟨0x67452301, 0xEFCDAB89, 0x98BADCFE, 0x10325476, 0xC3D2E1F0⟩

def wordBE : List Nat → Nat
  | [a, b, c, d] => ((a * 256 + b) * 256 + c) * 256 + d
  | _ => 0

def blockWords (block : List Nat) : List Nat := (chunksOf 4 block).map wordBE

def sha1Compress (st : SHA1State) (block : List Nat) : SHA1State :=
  match sha1Rounds (sha1Schedule (blockWords block)) (st.h0, st.h1, st.h2, st.h3, st.h4) with
  | (a, b, c, d, e) =>
    ⟨(st.h0 + a) % U32, (st.h1 + b) % U32, (st.h2 + c) % U32,
     (st.h3 + d) % U32, (st.h4 + e) % U32⟩

/-- The `k` big-endian bytes of `n`. -/
def beBytes (k n : Nat) : List Nat :=
  (List.range k).map (fun i => n / 256 ^ (k - 1 - i) % 256)

/-- MD-strengthening padding: append `0x80`, zero-pad to 56 mod 64, append
the 64-bit big-endian bit length. -/
def sha1Pad (m : List Nat) : List Nat :=
  m ++ [128] ++ List.replicate ((64 - (m.length + 9) % 64) % 64) 0 ++
    beBytes 8 (8 * m.length)

def sha1Output (st : SHA1State) : List Nat :=
  beBytes 4 st.h0 ++ beBytes 4 st.h1 ++ beBytes 4 st.h2 ++
    beBytes 4 st.h3 ++ beBytes 4 st.h4

/-- Modelled from the spec: the reference SHA1 digest — the standard
multi-block algorithm, one compression per 64-byte block of the padded
message, chaining the five registers. -/
def sha1Reference (m : List Nat) : List Nat :=
  sha1Output ((chunksOf 64 (sha1Pad m)).foldl sha1Compress sha1Init)

/-- Modelled from the spec: `SHA1Core.digest` — fast path for at most 55
content bytes (message + padding fit in exactly one 64-byte block: a single
compression round from the initial constants), slow path otherwise (one
compression per block, chaining the registers). -/
def sha1Digest (m : List Nat) : List Nat :=
  if m.length ≤ 55 then sha1Output (sha1Compress sha1Init (sha1Pad m))
  else sha1Output ((chunksOf 64 (sha1Pad m)).foldl sha1Compress sha1Init)

theorem sha1Pad_length (m : List Nat) :
    (sha1Pad m).length = m.length + 9 + (64 - (m.length + 9) % 64) % 64 := by
  simp only [sha1Pad, List.length_append, List.length_cons, List.length_nil,
    List.length_replicate, beBytes, List.length_map, List.length_range]
  omega

theorem sha1Pad_length_of_short (m : List Nat) (h : m.length ≤ 55) :
    (sha1Pad m).length = 64 := by
  rw [sha1Pad_length]
  omega

/-- Sanity anchor: the model produces the standard SHA1 digest of `"abc"`
(a fast-path input). -/
theorem sha1Reference_abc :
    sha1Reference [97, 98, 99] =
      [0xa9, 0x99, 0x3e, 0x36, 0x47, 0x06, 0x81, 0x6a, 0xba, 0x3e,
       0x25, 0x71, 0x78, 0x50, 0xc2, 0x6c, 0x9c, 0xd0, 0xd8, 0x9d] := by
  decide

/-- Sanity anchor: the model produces the standard SHA1 digest of the
56-byte message `"abcdbcde…nopq"` (a slow-path, two-block input). -/
theorem sha1Reference_two_blocks :
    sha1Reference [97, 98, 99, 100, 98, 99, 100, 101, 99, 100, 101, 102,
      100, 101, 102, 103, 101, 102, 103, 104, 102, 103, 104, 105,
      103, 104, 105, 106, 104, 105, 106, 107, 105, 106, 107, 108,
      106, 107, 108, 109, 107, 108, 109, 110, 108, 109, 110, 111,
      109, 110, 111, 112, 110, 111, 112, 113] =
      [0x84, 0x98, 0x3e, 0x44, 0x1c, 0x3b, 0xd2, 0x6e, 0xba, 0xae,
       0x4a, 0xa1, 0xf9, 0x51, 0x29, 0xe5, 0xe5, 0x46, 0x70, 0xf1] := by
  decide

/-- C1: for every message, the SHA1 core's digest — fast path for at most
55 content bytes, slow path beyond — equals the reference SHA1 digest of
that message; the two paths never diverge. -/
theorem sha1Digest_eq_reference (m : List Nat) :
    sha1Digest m = sha1Reference m := by
  unfold sha1Digest sha1Reference
  by_cases h : m.length ≤ 55
  · rw [if_pos h]
    have hlen : (sha1Pad m).length = 64 := sha1Pad_length_of_short m h
    have hne : sha1Pad m ≠ [] := by
      intro hnil
      rw [hnil] at hlen
      exact absurd hlen (by decide)
    rw [chunksOf_singleton 64 (sha1Pad m) hne (by omega)]
    rfl
  · rw [if_neg h]

/-! ## Candidate-message construction (examples/batch_hashing.rs, lines 34–42)

```rust
let mut messages_vec: Vec<String> = Vec::new();
for i in start_counter..start_counter + batch_size {
    messages_vec.push(format!("{}{}", public_key, i));
}
```

The key's bytes followed by the decimal rendering of the counter, one
message per counter of the half-open range `start..start + count` in
increasing order.  `start_counter` and `batch_size` are `usize` (64-bit),
so the exclusive range end `start_counter + batch_size` is computed mod
2^64 (release-build wrapping semantics; debug builds panic on the
overflow), and a Rust range `a..b` with `b ≤ a` is empty: on overflow the
loop builds no messages.  `decimalAux` is the canonical decimal rendering
of a natural number as ASCII bytes (what Rust's `Display` for integers
produces), fuel-based so that it reduces by `decide`. -/

def decimalAux : Nat → Nat → List Nat
  | 0, _ => []
  | fuel + 1, n =>
    if n < 10 then [48 + n] else decimalAux fuel (n / 10) ++ [48 + n % 10]

def decimalDigits (n : Nat) : List Nat := decimalAux (n + 1) n

def buildMessage (key : List Nat) (c : Nat) : List Nat := key ++ decimalDigits c

def USIZEMOD : Nat := 18446744073709551616

/-- The loop of examples/batch_hashing.rs:34–42: the exclusive range end
`start_counter + batch_size` wraps mod 2^64 in `usize` arithmetic, and the
range `start..end` yields `end - start` counters when `end > start` and
none otherwise — which is exactly Nat truncated subtraction. -/
def buildBatch (key : List Nat) (start count : Nat) : List (List Nat) :=
  (List.range ((start + count) % USIZEMOD - start)).map
    (fun i => buildMessage key (start + i))

/-- The numeric value of a string of ASCII digits, most significant first. -/
def decValue (l : List Nat) : Nat := l.foldl (fun a d => 10 * a + (d - 48)) 0

theorem decimalAux_ne_nil (fuel : Nat) : ∀ n : Nat, n < fuel → decimalAux fuel n ≠ [] := by
  induction fuel with
  | zero => intro n h; omega
  | succ f ih =>
    intro n _
    by_cases h10 : n < 10
    · simp [decimalAux, h10]
    · simp [decimalAux, h10]

theorem decimalAux_digits (fuel : Nat) : ∀ n : Nat, n < fuel →
    ∀ d ∈ decimalAux fuel n, 48 ≤ d ∧ d ≤ 57 := by
  induction fuel with
  | zero => intro n h; omega
  | succ f ih =>
    intro n hn d hd
    by_cases h10 : n < 10
    · simp only [decimalAux, if_pos h10, List.mem_singleton] at hd
      omega
    · simp only [decimalAux, if_neg h10, List.mem_append, List.mem_singleton] at hd
      rcases hd with h | h
      · exact ih (n / 10) (by omega) d h
      · have : n % 10 < 10 := Nat.mod_lt n (by omega)
        omega

theorem decimalAux_foldl (fuel : Nat) : ∀ n : Nat, n < fuel → ∀ a : Nat,
    (decimalAux fuel n).foldl (fun x d => 10 * x + (d - 48)) a =
      a * 10 ^ (decimalAux fuel n).length + n := by
  induction fuel with
  | zero => intro n h; omega
  | succ f ih =>
    intro n hn a
    by_cases h10 : n < 10
    · simp only [decimalAux, if_pos h10, List.foldl_cons, List.foldl_nil,
        List.length_singleton, pow_one]
      omega
    · simp only [decimalAux, if_neg h10, List.foldl_append, List.foldl_cons,
        List.foldl_nil, List.length_append, List.length_singleton]
      rw [ih (n / 10) (by omega) a]
      have hmod : 48 + n % 10 - 48 = n % 10 := by omega
      rw [hmod, pow_succ]
      have : 10 * (n / 10) + n % 10 = n := Nat.div_add_mod n 10
      ring_nf
      omega

theorem decValue_decimalDigits (n : Nat) : decValue (decimalDigits n) = n := by
  unfold decValue decimalDigits
  rw [decimalAux_foldl (n + 1) n (Nat.lt_succ_self n) 0]
  simp

theorem decimalAux_head_ne_zero (fuel : Nat) : ∀ n : Nat, n < fuel → n ≠ 0 →
    (decimalAux fuel n).headD 0 ≠ 48 := by
  induction fuel with
  | zero => intro n h; omega
  | succ f ih =>
    intro n hn hnz
    by_cases h10 : n < 10
    · simp only [decimalAux, if_pos h10, List.headD_cons]
      omega
    · simp only [decimalAux, if_neg h10]
      have hne : decimalAux f (n / 10) ≠ [] := decimalAux_ne_nil f (n / 10) (by omega)
      rcases List.exists_cons_of_ne_nil hne with ⟨d, rest, hcons⟩
      rw [hcons, List.cons_append, List.headD_cons]
      have := ih (n / 10) (by omega) (by omega)
      rw [hcons, List.headD_cons] at this
      exact this

/-- C6, counterexample: the claim promises exactly `batchSize` messages for
every start counter and batch size, but at `startCounter = usize::MAX` with
`batchSize = 1` the exclusive range end wraps to 0 (release semantics), the
range `usize::MAX..0` is empty, and the loop builds 0 messages, not 1. -/
theorem buildBatch_overflow_cex :
    (buildBatch [107, 101, 121] 18446744073709551615 1).length ≠ 1 := by
  decide

/-- C6, amended: for every public key, start counter and batch size (each a
`usize` value), when `start + count` does not overflow `usize` the candidate
batch has exactly `count` messages, the `i`-th (counter order is increasing)
being the key's bytes followed by the canonical decimal representation of
`start + i`: a digit string whose value is `start + i`, made only of ASCII
digits, with no leading zero (and no separator or sign anywhere); when
`start + count` overflows `usize`, the wrapped range is empty and no
messages are built. -/
theorem buildBatch_spec (key : List Nat) (start count : Nat)
    (hcount : count < USIZEMOD) :
    (start + count < USIZEMOD →
      (buildBatch key start count).length = count ∧
      ∀ i, i < count →
        (buildBatch key start count).getD i [] = key ++ decimalDigits (start + i) ∧
        decValue (decimalDigits (start + i)) = start + i ∧
        (∀ d ∈ decimalDigits (start + i), 48 ≤ d ∧ d ≤ 57) ∧
        (start + i ≠ 0 → (decimalDigits (start + i)).headD 0 ≠ 48)) ∧
    (USIZEMOD ≤ start + count → buildBatch key start count = []) := by
  constructor
  · intro hlt
    have hrange : (start + count) % USIZEMOD - start = count := by
      unfold USIZEMOD at hlt ⊢
      omega
    constructor
    · simp [buildBatch, hrange]
    · intro i hi
      refine ⟨?_, decValue_decimalDigits (start + i), ?_, ?_⟩
      · simp only [buildBatch, buildMessage, hrange, List.getD_eq_getElem?_getD,
          List.getElem?_map, List.getElem?_range, hi, if_pos hi]
        rfl
      · exact decimalAux_digits (start + i + 1) (start + i) (Nat.lt_succ_self _)
      · exact decimalAux_head_ne_zero (start + i + 1) (start + i) (Nat.lt_succ_self _)
  · intro hof
    have hrange : (start + count) % USIZEMOD - start = 0 := by
      unfold USIZEMOD at hof hcount ⊢
      omega
    simp [buildBatch, hrange]

/-- Witness for `buildBatch_spec`, twice: with key `"ab"`, start counter 999
and batch size 3 (no overflow: the second message is `"ab" ++ "1000"`), and
with start counter `usize::MAX` and batch size 2 (overflow: empty batch). -/
theorem buildBatch_spec_witness :
    (buildBatch [97, 98] 999 3).length = 3 ∧
    (buildBatch [97, 98] 999 3).getD 1 [] = [97, 98] ++ decimalDigits 1000 ∧
    decimalDigits 1000 = [49, 48, 48, 48] ∧
    buildBatch [97, 98] 18446744073709551615 2 = [] := by
  have h := buildBatch_spec [97, 98] 999 3 (by decide)
  have hov := buildBatch_spec [97, 98] 18446744073709551615 2 (by decide)
  exact ⟨(h.1 (by decide)).1, ((h.1 (by decide)).2 1 (by decide)).1, by decide,
    hov.2 (by decide)⟩

/-! ## CPU and GPU backends (spec §4.3, §4.4)

Modelled from the spec: the `hashers/` module is not part of the reviewed
excerpt.  Both backends share the Message Builder, the SHA1 core and the
level extraction; the GPU backend additionally partitions the batch into
launch groups of `threadsPerBlock` candidates (a partial final group is
allowed) and returns the concatenated per-group results in counter order. -/

def messageLevel (m : List Nat) : Nat := count_trailing_zero_bits (sha1Digest m)

/-- Modelled from the spec (§4.3): the CPU hasher's `calculateLevels` —
build a message per counter of `[start, start + count)`, hash it with the
SHA1 core, extract the level, in counter order. -/
def cpuCalculateLevels (key : List Nat) (start count : Nat) : List Nat :=
  (List.range count).map (fun i => messageLevel (buildMessage key (start + i)))

/-- Modelled from the spec (§4.4 step 2): "Build (or have the caller build)
`batchSize` messages for counters `[startCounter, startCounter+batchSize)`"
— one message per counter of the interval, in counter order. -/
def batchMessages (key : List Nat) (start count : Nat) : List (List Nat) :=
  (List.range count).map (fun i => buildMessage key (start + i))

/-- Modelled from the spec (§4.4): the GPU hasher's `calculateLevels` —
build the batch of messages, partition it into launch groups of
`threadsPerBlock` candidates, compute each candidate's level on-device
(device SHA1 core plus on-device level reduction) and transfer the
concatenated levels back in counter order. -/
def gpuCalculateLevelsWithParams (key : List Nat) (start count threadsPerBlock : Nat) :
    List Nat :=
  ((chunksOf threadsPerBlock (batchMessages key start count)).map
    (fun grp => grp.map messageLevel)).flatten

def gpuCalculateLevels (key : List Nat) (start count : Nat) : List Nat :=
  gpuCalculateLevelsWithParams key start count 256

theorem flatten_map_chunksOf (n : Nat) (hn : 1 ≤ n) (f : α → β) (l : List α) :
    ((chunksOf n l).map (fun grp => grp.map f)).flatten = l.map f := by
  rw [← List.map_flatten, chunksOf_join n hn l]

/-- C3: for every fixed `(publicKey, startCounter, count)` — and in fact for
every positive launch-group size — the CPU backend's `calculateLevels` and
the GPU backend's `calculateLevels` return identical lists of security
levels. -/
theorem gpu_cpu_levels_agree (key : List Nat) (start count : Nat) :
    gpuCalculateLevels key start count = cpuCalculateLevels key start count := by
  unfold gpuCalculateLevels gpuCalculateLevelsWithParams cpuCalculateLevels batchMessages
  rw [flatten_map_chunksOf 256 (by omega), List.map_map]
  rfl

/-! ## Level Improver (spec §4.5)

Modelled from the spec: the `level_improver/` module is not part of the
reviewed excerpt.  One search session is a state machine with states
`Searching`, `TargetReached`, `Exhausted` and `Failed`; from `Searching`
one transition requests the next window of `batchSize` candidates at the
current cursor, scans it with the same tie-breaking scan as the example
(`scanGo`), reaches the target when the best level meets it, and — before
the window is even requested — transitions to `Exhausted` if advancing the
cursor by `batchSize` would overflow `u64`. -/

inductive ImproveState where
  | searching (cursor bestCounter bestLevel : Nat)
  | targetReached (bestCounter bestLevel : Nat)
  | exhausted (cursor bestCounter bestLevel : Nat)
  | failed

def U64MAX : Nat := 18446744073709551615

/-- Modelled from the spec (§4.5): one transition of the Level Improver. -/
def improveStep (key : List Nat) (target batchSize : Nat) :
    ImproveState → ImproveState
  | .searching cursor bc bl =>
    if U64MAX < cursor + batchSize then .exhausted cursor bc bl
    else
      match scanGo cursor 0 (cpuCalculateLevels key cursor batchSize) (bc, bl) with
      | (bc2, bl2) =>
        if target ≤ bl2 then .targetReached bc2 bl2
        else .searching (cursor + batchSize) bc2 bl2
  | s => s

/-- C5: whenever the counter cursor cannot advance by `batchSize` without
exceeding `u64::MAX`, the Level Improver transitions to `Exhausted`,
keeping the cursor unwrapped and unchanged. -/
theorem improver_exhausts_on_overflow (key : List Nat)
    (target batchSize cursor bc bl : Nat) (h : U64MAX < cursor + batchSize) :
    improveStep key target batchSize (.searching cursor bc bl) =
      .exhausted cursor bc bl := by
  simp only [improveStep, if_pos h]

/-- Witness for `improver_exhausts_on_overflow`: a search at
`startCounter = u64::MAX - 1` with `batchSize = 10` becomes `Exhausted`
with the counter still `u64::MAX - 1`. -/
theorem improver_exhausts_on_overflow_witness :
    improveStep [] 0 10 (.searching 18446744073709551614 0 0) =
      .exhausted 18446744073709551614 0 0 :=
  improver_exhausts_on_overflow [] 0 10 18446744073709551614 0 0 (by decide)

/-! ## Kernel-parameter benchmark (benches/kernel_params.rs, lines 1–63)

```rust
const WARMUP_ITERATIONS: usize = 1000;
const BENCHMARK_ITERATIONS: usize = 10000;

fn benchmark_config(hasher, public_key, start_counter,
    threads_per_block, shared_mem_bytes: Option<usize>, batch_size)
    -> Option<BenchResult> {
    let actual_shared_mem = shared_mem_bytes.unwrap_or(threads_per_block * 128);
    for _ in 0..WARMUP_ITERATIONS {
        if hasher.calculate_levels_optimized_with_params(...).is_err() {
            return None; // Invalid configuration
        }
    }
    let mut timings = ...;           // one Instant::elapsed per iteration
    timings.sort();
    let min = timings[0];
    let max = timings[timings.len() - 1];
    let median = timings[timings.len() / 2];
    let mean = timings.iter().sum::<Duration>() / timings.len() as u32;
    Some(BenchResult { threads_per_block, shared_mem_bytes: actual_shared_mem,
                       batch_size, mean, median, min, max })
}
```

The CUDA hasher and the wall clock are external: invocation success is an
oracle `ok : Nat → Bool` (per warmup iteration) and the measured latency an
oracle `time : Nat → Nat` (nanoseconds per benchmark iteration).  Durations
are `Nat` nanoseconds; Rust's `Duration / u32` is truncating division. -/

def WARMUP_ITERATIONS : Nat := 1000

def BENCHMARK_ITERATIONS : Nat := 10000

structure BenchResult where
  threads_per_block : Nat
  shared_mem_bytes : Nat
  batch_size : Nat
  mean : Nat
  median : Nat
  min : Nat
  max : Nat

def benchmark_config (ok : Nat → Bool) (time : Nat → Nat)
    (threads_per_block : Nat) (shared_mem_bytes : Option Nat)
    (batch_size : Nat) : Option BenchResult :=
  let actual_shared_mem := shared_mem_bytes.getD (threads_per_block * 128)
  if (List.range WARMUP_ITERATIONS).any (fun i => !(ok i)) then none
  else
    let timings := (List.range BENCHMARK_ITERATIONS).map time
    let sorted := timings.mergeSort
    some {
      threads_per_block := threads_per_block
      shared_mem_bytes := actual_shared_mem
      batch_size := batch_size
      mean := sorted.sum / sorted.length
      median := sorted.getD (sorted.length / 2) 0
      min := sorted.getD 0 0
      max := sorted.getD (sorted.length - 1) 0 }

/-- C7: if any warmup invocation of the hasher errors, `benchmark_config`
returns `None` — the configuration is skipped, the sweep is not aborted. -/
theorem benchmark_config_skips_invalid (ok : Nat → Bool) (time : Nat → Nat)
    (threads_per_block : Nat) (shared_mem_bytes : Option Nat) (batch_size : Nat)
    (h : ∃ i, i < WARMUP_ITERATIONS ∧ ok i = false) :
    benchmark_config ok time threads_per_block shared_mem_bytes batch_size = none := by
  rcases h with ⟨i, hi, hfalse⟩
  have hcond : ((List.range WARMUP_ITERATIONS).any (fun i => !(ok i))) = true := by
    rw [List.any_eq_true]
    exact ⟨i, List.mem_range.mpr hi, by rw [hfalse]; rfl⟩
  simp only [benchmark_config, hcond, if_true]

/-- Witness for `benchmark_config_skips_invalid`: a hasher that always
errors makes every configuration come back as `None`. -/
theorem benchmark_config_skips_invalid_witness :
    benchmark_config (fun _ => false) (fun _ => 0) 64 none 1000 = none :=
  benchmark_config_skips_invalid (fun _ => false) (fun _ => 0) 64 none 1000
    ⟨0, by decide, rfl⟩

theorem benchmark_config_warmup_ok (ok : Nat → Bool)
    (hok : ∀ i, i < WARMUP_ITERATIONS → ok i = true) :
    ((List.range WARMUP_ITERATIONS).any (fun i => !(ok i))) = false := by
  rw [List.any_eq_false]
  intro x hx
  rw [hok x (List.mem_range.mp hx)]
  decide

/-- C8: when the caller leaves `sharedMemBytes` unset, the effective
shared-memory-per-block value computed and reported by `benchmark_config`
is `threadsPerBlock * 128`. -/
theorem benchmark_config_default_shared_mem (ok : Nat → Bool) (time : Nat → Nat)
    (threads_per_block batch_size : Nat)
    (hok : ∀ i, i < WARMUP_ITERATIONS → ok i = true) :
    ∃ r, benchmark_config ok time threads_per_block none batch_size = some r ∧
      r.shared_mem_bytes = threads_per_block * 128 := by
  simp only [benchmark_config, benchmark_config_warmup_ok ok hok,
    Bool.false_eq_true, if_false, Option.getD]
  exact ⟨_, rfl, rfl⟩

/-- Witness for `benchmark_config_default_shared_mem` with an always-valid
configuration and 64 threads per block. -/
theorem benchmark_config_default_shared_mem_witness :
    ∃ r, benchmark_config (fun _ => true) (fun _ => 0) 64 none 1000 = some r ∧
      r.shared_mem_bytes = 64 * 128 :=
  benchmark_config_default_shared_mem (fun _ => true) (fun _ => 0) 64 1000
    (fun _ _ => rfl)

theorem getD_zero_mem (l : List Nat) (h : l ≠ []) : l.getD 0 0 ∈ l := by
  match l with
  | [] => exact absurd rfl h
  | a :: rest => exact List.mem_cons_self a rest

theorem getD_last_mem (l : List Nat) (h : l ≠ []) :
    l.getD (l.length - 1) 0 ∈ l := by
  induction l with
  | nil => exact absurd rfl h
  | cons a rest ih =>
    match rest with
    | [] => exact List.mem_cons_self a []
    | b :: rest2 =>
      have : (a :: b :: rest2).getD ((a :: b :: rest2).length - 1) 0 =
          (b :: rest2).getD ((b :: rest2).length - 1) 0 := by
        simp [List.getD_cons_succ, List.length_cons]
      rw [this]
      exact List.mem_cons_of_mem a (ih (by simp))

theorem sorted_getD_zero_le (l : List Nat) (hs : List.Sorted (· ≤ ·) l) :
    ∀ x ∈ l, l.getD 0 0 ≤ x := by
  match l with
  | [] => intro x hx; cases hx
  | a :: rest =>
    intro x hx
    rcases List.mem_cons.mp hx with h | h
    · exact h ▸ Nat.le_refl a
    · exact (List.sorted_cons.mp hs).1 x h

theorem sorted_le_getD_last (l : List Nat) (hs : List.Sorted (· ≤ ·) l) :
    ∀ x ∈ l, x ≤ l.getD (l.length - 1) 0 := by
  induction l with
  | nil => intro x hx; cases hx
  | cons a rest ih =>
    intro x hx
    rcases List.sorted_cons.mp hs with ⟨hhead, htail⟩
    match rest with
    | [] =>
      rcases List.mem_cons.mp hx with h | h
      · exact h ▸ Nat.le_refl a
      · cases h
    | b :: rest2 =>
      have hred : (a :: b :: rest2).getD ((a :: b :: rest2).length - 1) 0 =
          (b :: rest2).getD ((b :: rest2).length - 1) 0 := by
        simp [List.getD_cons_succ, List.length_cons]
      rw [hred]
      rcases List.mem_cons.mp hx with h | h
      · subst h
        exact le_trans (hhead _ (getD_last_mem (b :: rest2) (by simp)))
          (Nat.le_refl _)
      · exact ih htail x h

/-- C9: over the 10000 timing samples collected by `benchmark_config`, the
reported `min` is the smallest sample, the reported `max` is the largest
sample, the reported `median` is the element at index `n / 2` of the sorted
samples, and the reported `mean` is the sum of all samples divided by `n`. -/
theorem benchmark_config_stats (ok : Nat → Bool) (time : Nat → Nat)
    (threads_per_block : Nat) (shared_mem_bytes : Option Nat) (batch_size : Nat)
    (hok : ∀ i, i < WARMUP_ITERATIONS → ok i = true) :
    ∃ r, benchmark_config ok time threads_per_block shared_mem_bytes batch_size
        = some r ∧
      (r.min ∈ (List.range BENCHMARK_ITERATIONS).map time ∧
        ∀ t ∈ (List.range BENCHMARK_ITERATIONS).map time, r.min ≤ t) ∧
      (r.max ∈ (List.range BENCHMARK_ITERATIONS).map time ∧
        ∀ t ∈ (List.range BENCHMARK_ITERATIONS).map time, t ≤ r.max) ∧
      r.median = ((List.range BENCHMARK_ITERATIONS).map time).mergeSort.getD
        (BENCHMARK_ITERATIONS / 2) 0 ∧
      r.mean = ((List.range BENCHMARK_ITERATIONS).map time).sum
        / BENCHMARK_ITERATIONS := by
  simp only [benchmark_config, benchmark_config_warmup_ok ok hok,
    Bool.false_eq_true, if_false]
  set timings := (List.range BENCHMARK_ITERATIONS).map time with htimings
  set sorted := timings.mergeSort with hsorted
  have hperm : sorted.Perm timings := List.mergeSort_perm timings _
  have hsort : List.Sorted (· ≤ ·) sorted := List.sorted_mergeSort' timings
  have hlen : sorted.length = BENCHMARK_ITERATIONS := by
    rw [hperm.length_eq, htimings, List.length_map, List.length_range]
  have hne : sorted ≠ [] := by
    intro hnil
    rw [hnil] at hlen
    exact absurd hlen.symm (by decide)
  refine ⟨_, rfl, ⟨?_, ?_⟩, ⟨?_, ?_⟩, ?_, ?_⟩
  · exact hperm.mem_iff.mp (getD_zero_mem sorted hne)
  · intro t ht
    exact sorted_getD_zero_le sorted hsort t (hperm.mem_iff.mpr ht)
  · exact hperm.mem_iff.mp (getD_last_mem sorted hne)
  · intro t ht
    exact sorted_le_getD_last sorted hsort t (hperm.mem_iff.mpr ht)
  · rw [hlen]
  · rw [hperm.sum_eq, hlen]

/-- Witness for `benchmark_config_stats` with an always-valid configuration
and the iteration index as the measured latency. -/
theorem benchmark_config_stats_witness :
    ∃ r, benchmark_config (fun _ => true) (fun i => i) 128 (some 4096) 50000
        = some r ∧
      (r.min ∈ (List.range BENCHMARK_ITERATIONS).map (fun i => i) ∧
        ∀ t ∈ (List.range BENCHMARK_ITERATIONS).map (fun i => i), r.min ≤ t) ∧
      (r.max ∈ (List.range BENCHMARK_ITERATIONS).map (fun i => i) ∧
        ∀ t ∈ (List.range BENCHMARK_ITERATIONS).map (fun i => i), t ≤ r.max) ∧
      r.median = ((List.range BENCHMARK_ITERATIONS).map (fun i => i)).mergeSort.getD
        (BENCHMARK_ITERATIONS / 2) 0 ∧
      r.mean = ((List.range BENCHMARK_ITERATIONS).map (fun i => i)).sum
        / BENCHMARK_ITERATIONS :=
  benchmark_config_stats (fun _ => true) (fun i => i) 128 (some 4096) 50000
    (fun _ _ => rfl)

end TS3Sec
